import Mathlib

/-!
Verification of the landmark-normalization and prediction-stabilization core
of the AI sign-language translator.

The Python source is shallowly embedded: floating-point scalars are modelled
as rationals (`ℚ`), numpy arrays as lists, the insertion-ordered Python dict
used for tallying as an association list, and `collections.deque(maxlen=W)`
as a list that drops its oldest elements past capacity.  Fallible Python
calls are modelled with `Option`.
-/

namespace SignLang

/-- One hand keypoint: x, y in frame-pixel space, z a relative depth unit
(`sign_detector.py`, data model of `preprocess_landmarks`). -/
structure Keypoint where
  x : ℚ
  y : ℚ
  z : ℚ
deriving DecidableEq, Repr

/-- `np.min` over a list, modelled as a fold from the head element. -/
def listMin (l : List ℚ) : ℚ := l.foldl min (l.headD 0)

/-- `np.max` over a list, modelled as a fold from the head element. -/
def listMax (l : List ℚ) : ℚ := l.foldl max (l.headD 0)

/-- `normalized_landmarks = landmarks_reshaped - wrist`
(`sign_detector.py` lines 105-107): translate every keypoint by the wrist
(keypoint 0). -/
def normalized_landmarks (pose : List Keypoint) : List Keypoint :=
  let wrist := pose.headD ⟨0, 0, 0⟩
  pose.map (fun k => ⟨k.x - wrist.x, k.y - wrist.y, k.z - wrist.z⟩)

/-- The translated x coordinates (`x_coords`, line 110). -/
def x_coords (pose : List Keypoint) : List ℚ :=
  (normalized_landmarks pose).map (fun k => k.x)

/-- The translated y coordinates (`y_coords`, line 111). -/
def y_coords (pose : List Keypoint) : List ℚ :=
  (normalized_landmarks pose).map (fun k => k.y)

/-- `x_min` of the translated pose (line 113). -/
def x_min (pose : List Keypoint) : ℚ := listMin (x_coords pose)

/-- `x_max` of the translated pose (line 113). -/
def x_max (pose : List Keypoint) : ℚ := listMax (x_coords pose)

/-- `y_min` of the translated pose (line 114). -/
def y_min (pose : List Keypoint) : ℚ := listMin (y_coords pose)

/-- `y_max` of the translated pose (line 114). -/
def y_max (pose : List Keypoint) : ℚ := listMax (y_coords pose)

/-- `x_range = max(x_max - x_min, 1)` (line 117): the degenerate-range clamp. -/
def x_range (pose : List Keypoint) : ℚ := max (x_max pose - x_min pose) 1

/-- `y_range = max(y_max - y_min, 1)` (line 118). -/
def y_range (pose : List Keypoint) : ℚ := max (y_max pose - y_min pose) 1

/-- `SignDetector.preprocess_landmarks` (`sign_detector.py` lines 89-125) on a
present pose: translate by the wrist, rescale x and y into [-1, 1] with the
clamped per-axis ranges, leave z only translated, and flatten in keypoint
order (x0, y0, z0, x1, ...).  The absent-pose case of the source (`None` in,
`None` out) is handled by the callers modelled below. -/
def preprocess_landmarks (pose : List Keypoint) : List ℚ :=
  ((normalized_landmarks pose).map (fun k =>
    [(k.x - x_min pose) / x_range pose * 2 - 1,
     (k.y - y_min pose) / y_range pose * 2 - 1,
     k.z])).flatten

/-! ## `utils.validate_landmarks` -/

/-- The x components of a flat landmark vector (`landmarks_reshaped[:, 0]`,
`utils.py` line 140): every element at an index that is 0 modulo 3. -/
def takeXs : List ℚ → List ℚ
  | x :: _ :: _ :: rest => x :: takeXs rest
  | _ => []

/-- The y components of a flat landmark vector (`landmarks_reshaped[:, 1]`,
`utils.py` line 141). -/
def takeYs : List ℚ → List ℚ
  | _ :: y :: _ :: rest => y :: takeYs rest
  | _ => []

/-- `utils.validate_landmarks` (`utils.py` lines 117-149): `None` and a vector
whose length is not 63 are rejected; then the per-keypoint x and y components
are required to lie within the ±1000 sanity bound.  The source's NaN/infinity
check (`np.isnan` / `np.isinf`) can never fire in this embedding because every
rational is finite, so it is omitted (it is the identically-false test here). -/
def validate_landmarks (landmarks : Option (List ℚ)) : Bool :=
  match landmarks with
  | none => false
  | some l =>
    if l.length ≠ 63 then false
    else if (takeXs l).any (fun x => x < -1000) || (takeXs l).any (fun x => x > 1000) then false
    else if (takeYs l).any (fun y => y < -1000) || (takeYs l).any (fun y => y > 1000) then false
    else true

/-! ## `SignTranslator` (translator.py) -/

/-- `config.SMOOTHING_WINDOW` (`config.py` line 52). -/
def SMOOTHING_WINDOW : ℕ := 5

/-- `config.GESTURE_THRESHOLD` (`config.py` line 51). -/
def GESTURE_THRESHOLD : ℚ := 7/10

/-- `config.ASL_CLASSES` (`config.py` lines 37-41). -/
def ASL_CLASSES : List String :=
  ["A", "B", "C", "D", "E", "F", "G", "H", "I", "J",
   "K", "L", "M", "N", "O", "P", "Q", "R", "S", "T",
   "U", "V", "W", "X", "Y", "Z"]

/-- The mutable state of a `SignTranslator` (`translator.py` lines 23-30):
the prediction history deque (oldest entry first), the current stabilized
prediction and confidence, and whether a model was successfully loaded. -/
structure SignTranslator where
  prediction_history : List (String × ℚ)
  current_prediction : String
  current_confidence : ℚ
  modelLoaded : Bool
deriving DecidableEq, Repr

/-- `deque(maxlen=W).append`: push at the newest end, evicting from the
oldest end while over capacity. -/
def dequeAppend (W : ℕ) (h : List (String × ℚ)) (p : String × ℚ) :
    List (String × ℚ) :=
  let h1 := h ++ [p]
  if W < h1.length then h1.drop (h1.length - W) else h1

/-- The tally loop of `SignTranslator._smooth_predictions`
(`translator.py` lines 100-109): a Python dict, insertion-ordered, mapping
each label seen in the history to its occurrence count — modelled as an
association list whose keys appear in first-seen order. -/
def tally (hist : List (String × ℚ)) : List (String × ℕ) :=
  hist.foldl
    (fun counts p =>
      if counts.any (fun c => c.1 = p.1) then
        counts.map (fun c => if c.1 = p.1 then (c.1, c.2 + 1) else c)
      else counts ++ [(p.1, 1)])
    []

/-- One comparison step of Python's `max` with a key function: a later entry
replaces the best-so-far only on a strictly greater count. -/
def pickMax (best c2 : String × ℕ) : String × ℕ :=
  if c2.2 > best.2 then c2 else best

/-- `max(prediction_counts, key=prediction_counts.get)`
(`translator.py` line 112): scan the dict keys in insertion order and keep
the first entry whose count is maximal. -/
def firstMax (counts : List (String × ℕ)) : String :=
  match counts with
  | [] => ""
  | c :: rest => (rest.foldl pickMax c).1

/-- `SignTranslator._smooth_predictions` (`translator.py` lines 90-115):
majority label of the history plus arithmetic mean of all confidences. -/
def smooth_predictions (hist : List (String × ℚ)) : String × ℚ :=
  if hist.isEmpty then ("", 0)
  else
    (firstMax (tally hist),
     hist.foldl (fun s p => s + p.2) 0 / (hist.length : ℚ))

/-- The accepted-frame branch of `SignTranslator.predict`
(`translator.py` lines 75-83): push the new prediction into the history,
resmooth, and store the stabilized pair. -/
def accept (st : SignTranslator) (sign : String) (conf : ℚ) :
    SignTranslator × (String × ℚ) :=
  let hist := dequeAppend SMOOTHING_WINDOW st.prediction_history (sign, conf)
  let r := smooth_predictions hist
  ({ st with
      prediction_history := hist
      current_prediction := r.1
      current_confidence := r.2 }, r)

/-- `SignTranslator.predict` (`translator.py` lines 46-88), with the
confidence threshold the source reads from `config.GESTURE_THRESHOLD` passed
explicitly.  The external classifier (`self.model.predict` followed by
`argmax`) is abstracted as `classify`; `classify lm = none` models an
exception raised during classification, which the source catches and turns
into `(None, 0.0)`.  An out-of-range class index (an `IndexError` in
`ASL_CLASSES[...]`, also caught by the `except` block) is modelled by
`ASL_CLASSES.get?`. -/
def predictWith (threshold : ℚ) (st : SignTranslator)
    (landmarks : Option (List ℚ)) (classify : List ℚ → Option (ℕ × ℚ)) :
    SignTranslator × (Option String × ℚ) :=
  if st.modelLoaded = false ∨ landmarks = none then (st, (none, 0))
  else
    match landmarks with
    | none => (st, (none, 0))
    | some lm =>
      match classify lm with
      | none => (st, (none, 0))
      | some (idx, conf) =>
        if conf > threshold then
          match ASL_CLASSES.get? idx with
          | none => (st, (none, 0))
          | some sign =>
            let r := accept st sign conf
            (r.1, (some r.2.1, r.2.2))
        else (st, (none, 0))

/-- `SignTranslator.predict` at the source's configured threshold. -/
def predict (st : SignTranslator) (landmarks : Option (List ℚ))
    (classify : List ℚ → Option (ℕ × ℚ)) :
    SignTranslator × (Option String × ℚ) :=
  predictWith GESTURE_THRESHOLD st landmarks classify

/-- `SignTranslator.reset` (`translator.py` lines 172-176). -/
def reset (st : SignTranslator) : SignTranslator :=
  { st with
      prediction_history := []
      current_prediction := ""
      current_confidence := 0 }

/-- `SignTranslator.get_current_prediction` (`translator.py` lines 178-185). -/
def get_current_prediction (st : SignTranslator) : String × ℚ :=
  (st.current_prediction, st.current_confidence)

/-- `SignTranslator.__init__` (`translator.py` lines 16-30), with the history
capacity passed explicitly the way `config.SMOOTHING_WINDOW` feeds
`deque(maxlen=...)`.  The constructor performs no validation of the tunables;
the only failure Python can raise here is `deque`'s `ValueError` on a
negative `maxlen` (modelled as `none`).  `config.GESTURE_THRESHOLD` is not
read at construction time at all. -/
def signTranslator_init (smoothing_window : ℤ) (modelLoaded : Bool) :
    Option SignTranslator :=
  if smoothing_window < 0 then none
  else some ⟨[], "", 0, modelLoaded⟩

/-- One externally observable mutating operation on the translator state,
for stating reachability invariants: an accepted per-frame prediction or a
reset. -/
inductive TranslatorOp where
  | acceptOp (sign : String) (conf : ℚ)
  | resetOp
deriving DecidableEq, Repr

/-- Apply one operation to the state. -/
def applyOp (st : SignTranslator) : TranslatorOp → SignTranslator
  | .acceptOp sign conf => (accept st sign conf).1
  | .resetOp => reset st

/-! ## Specification-side vocabulary used in the theorem statements -/

/-- Number of history entries carrying a given label. -/
def countLabel (hist : List (String × ℚ)) (l : String) : ℕ :=
  (hist.filter (fun p => p.1 = l)).length

/-- First occurrences of a list of labels, in scan order: the key order of an
insertion-ordered dict built over the list. -/
def firstOccur : List String → List String
  | [] => []
  | l :: rest => l :: (firstOccur rest).filter (fun s => s ≠ l)

/-- The tally a dict scan produces, written denotationally: the first-seen
labels in order, each paired with its total count. -/
def canonTally (hist : List (String × ℚ)) : List (String × ℕ) :=
  (firstOccur (hist.map Prod.fst)).map (fun l => (l, countLabel hist l))

/-- A sample pose of 21 pairwise identical keypoints (a degenerate pose). -/
def poseDegen : List Keypoint := List.replicate 21 ⟨5, 7, 3⟩

/-- A sample pose of 21 pairwise distinct keypoints, used to instantiate the
universally quantified theorems on a concrete input. -/
def posew : List Keypoint :=
  (List.range 21).map (fun i => ⟨(i : ℚ), (i : ℚ), (i : ℚ)⟩)

/-- A sample translator state used to instantiate theorems. -/
def stw : SignTranslator :=
  { prediction_history := [("A", 9/10), ("A", 8/10), ("B", 95/100), ("A", 85/100)]
    current_prediction := "A"
    current_confidence := 85/100
    modelLoaded := true }

/-- A sample classifier that always fails (raises), used to instantiate
theorems. -/
def classifyFail : List ℚ → Option (ℕ × ℚ) := fun _ => none

/-- A sample classifier returning a fixed class and confidence. -/
def classifyConst (idx : ℕ) (conf : ℚ) : List ℚ → Option (ℕ × ℚ) :=
  fun _ => some (idx, conf)

/-- The freshly constructed translator state (history empty, prediction
empty, confidence 0) with a model loaded. -/
def initTranslator : SignTranslator := ⟨[], "", 0, true⟩

/-- A sample translator state with no model loaded. -/
def stNoModel : SignTranslator := ⟨[], "", 0, false⟩

/-- A sample translator state whose window is exactly at capacity. -/
def stFull : SignTranslator :=
  ⟨[("A", 1), ("B", 1), ("A", 1), ("B", 1), ("A", 1)], "A", 1, true⟩

/-- A sample flat landmark vector. -/
def lmEx : List ℚ := List.replicate 63 0

/-- The accept sequence of the spec's smoothing scenario. -/
def histEx : List (String × ℚ) :=
  [("A", 9/10), ("A", 8/10), ("B", 95/100), ("A", 85/100), ("B", 7/10)]

/-- The spec's tie scenario window. -/
def tieEx : List (String × ℚ) := [("A", 9/10), ("B", 9/10)]

/-- A sample operation sequence. -/
def opsEx : List TranslatorOp :=
  [.acceptOp "A" 1, .acceptOp "B" 1, .resetOp, .acceptOp "C" 1,
   .acceptOp "D" 1, .acceptOp "E" 1, .acceptOp "F" 1, .acceptOp "G" 1,
   .acceptOp "H" 1]

/-! ## Helper lemmas about the fold-based min/max -/

lemma foldl_min_le_init (l : List ℚ) (init : ℚ) : l.foldl min init ≤ init := by
  induction l generalizing init with
  | nil => simp
  | cons a t ih =>
    exact le_trans (ih (min init a)) (min_le_left _ _)

lemma foldl_min_le_mem {l : List ℚ} {a : ℚ} (h : a ∈ l) (init : ℚ) :
    l.foldl min init ≤ a := by
  induction l generalizing init with
  | nil => cases h
  | cons b t ih =>
    rcases List.mem_cons.1 h with rfl | h2
    · exact le_trans (foldl_min_le_init t _) (min_le_right _ _)
    · exact ih h2 _

lemma listMin_le {l : List ℚ} {a : ℚ} (h : a ∈ l) : listMin l ≤ a :=
  foldl_min_le_mem h _

lemma init_le_foldl_max (l : List ℚ) (init : ℚ) : init ≤ l.foldl max init := by
  induction l generalizing init with
  | nil => simp
  | cons a t ih =>
    exact le_trans (le_max_left _ _) (ih (max init a))

lemma mem_le_foldl_max {l : List ℚ} {a : ℚ} (h : a ∈ l) (init : ℚ) :
    a ≤ l.foldl max init := by
  induction l generalizing init with
  | nil => cases h
  | cons b t ih =>
    rcases List.mem_cons.1 h with rfl | h2
    · exact le_trans (le_max_right _ _) (init_le_foldl_max t _)
    · exact ih h2 _

lemma le_listMax {l : List ℚ} {a : ℚ} (h : a ∈ l) : a ≤ listMax l :=
  mem_le_foldl_max h _

lemma foldl_min_all_eq {l : List ℚ} {c : ℚ} (h : ∀ v ∈ l, v = c) :
    l.foldl min c = c := by
  induction l with
  | nil => rfl
  | cons a t ih =>
    rw [List.foldl_cons, h a (List.mem_cons_self _ _), min_self]
    exact ih (fun v hv => h v (List.mem_cons_of_mem _ hv))

lemma listMin_all_eq {l : List ℚ} {c : ℚ} (hne : l ≠ [])
    (h : ∀ v ∈ l, v = c) : listMin l = c := by
  cases l with
  | nil => exact absurd rfl hne
  | cons a t =>
    rw [listMin]
    simp only [List.headD_cons]
    rw [List.foldl_cons, min_self, h a (List.mem_cons_self _ _)]
    exact foldl_min_all_eq (fun v hv => h v (List.mem_cons_of_mem _ hv))

lemma foldl_max_all_eq {l : List ℚ} {c : ℚ} (h : ∀ v ∈ l, v = c) :
    l.foldl max c = c := by
  induction l with
  | nil => rfl
  | cons a t ih =>
    rw [List.foldl_cons, h a (List.mem_cons_self _ _), max_self]
    exact ih (fun v hv => h v (List.mem_cons_of_mem _ hv))

lemma listMax_all_eq {l : List ℚ} {c : ℚ} (hne : l ≠ [])
    (h : ∀ v ∈ l, v = c) : listMax l = c := by
  cases l with
  | nil => exact absurd rfl hne
  | cons a t =>
    rw [listMax]
    simp only [List.headD_cons]
    rw [List.foldl_cons, max_self, h a (List.mem_cons_self _ _)]
    exact foldl_max_all_eq (fun v hv => h v (List.mem_cons_of_mem _ hv))

/-- The rescale step keeps a value between its axis min and max inside
[-1, 1], thanks to the clamped (hence positive) range. -/
lemma scale_bounds {v m M : ℚ} (h1 : m ≤ v) (h2 : v ≤ M) :
    -1 ≤ (v - m) / max (M - m) 1 * 2 - 1 ∧
      (v - m) / max (M - m) 1 * 2 - 1 ≤ 1 := by
  have hr1 : (1 : ℚ) ≤ max (M - m) 1 := le_max_right _ _
  have hr0 : (0 : ℚ) < max (M - m) 1 := lt_of_lt_of_le one_pos hr1
  have hq0 : 0 ≤ (v - m) / max (M - m) 1 := div_nonneg (by linarith) hr0.le
  have hq1 : (v - m) / max (M - m) 1 ≤ 1 :=
    (div_le_one hr0).2 (le_trans (by linarith) (le_max_left _ _))
  constructor <;> linarith

/-! ## Helper lemmas about the flattened per-keypoint triples -/

lemma flatten_triples_length (f : Keypoint → List ℚ)
    (hf : ∀ k, (f k).length = 3) (l : List Keypoint) :
    ((l.map f).flatten).length = 3 * l.length := by
  induction l with
  | nil => simp
  | cons k t ih =>
    simp only [List.map_cons, List.flatten_cons, List.length_append, hf, ih,
      List.length_cons]
    ring

lemma flatten_triples_getD (f : Keypoint → List ℚ)
    (hf : ∀ k, (f k).length = 3) (l : List Keypoint) (j r : ℕ)
    (hj : j < l.length) (hr : r < 3) :
    ((l.map f).flatten).getD (3 * j + r) 0
      = (f (l.getD j ⟨0, 0, 0⟩)).getD r 0 := by
  induction l generalizing j with
  | nil => cases hj
  | cons k t ih =>
    cases j with
    | zero =>
      simp only [List.map_cons, List.flatten_cons, List.getD_cons_zero,
        Nat.mul_zero, Nat.zero_add]
      rw [List.getD_append]
      rw [hf]; exact hr
    | succ n =>
      have h3 : 3 * (n + 1) + r = (f k).length + (3 * n + r) := by
        rw [hf]; ring
      have hn : n < t.length := by
        simpa using Nat.lt_of_succ_lt_succ (by simpa using hj)
      simp only [List.map_cons, List.flatten_cons]
      rw [h3, List.getD_append_right _ _ _ _ (Nat.le_add_right _ _),
        Nat.add_sub_cancel_left, List.getD_cons_succ]
      exact ih n hn

lemma getD_map_keypoint (g : Keypoint → Keypoint) (l : List Keypoint) (j : ℕ)
    (hj : j < l.length) :
    (l.map g).getD j ⟨0, 0, 0⟩ = g (l.getD j ⟨0, 0, 0⟩) := by
  rw [List.getD_eq_getElem _ _ (by simpa using hj), List.getElem_map,
    List.getD_eq_getElem _ _ hj]

lemma normalized_landmarks_length (pose : List Keypoint) :
    (normalized_landmarks pose).length = pose.length := by
  simp [normalized_landmarks]

lemma getD_mem_keypoint (l : List Keypoint) (j : ℕ) (hj : j < l.length) :
    l.getD j ⟨0, 0, 0⟩ ∈ l := by
  rw [List.getD_eq_getElem _ _ hj]
  exact List.getElem_mem _

/-! ## Helper lemmas: the tally is an insertion-ordered count table -/

lemma tally_append (hist : List (String × ℚ)) (p : String × ℚ) :
    tally (hist ++ [p]) =
      if (tally hist).any (fun c => c.1 = p.1) then
        (tally hist).map (fun c => if c.1 = p.1 then (c.1, c.2 + 1) else c)
      else tally hist ++ [(p.1, 1)] := by
  simp [tally, List.foldl_append]

lemma countLabel_append (hist : List (String × ℚ)) (p : String × ℚ)
    (l : String) :
    countLabel (hist ++ [p]) l
      = countLabel hist l + (if p.1 = l then 1 else 0) := by
  rcases eq_or_ne p.1 l with h | h
  · simp [countLabel, List.filter_append, h]
  · simp [countLabel, List.filter_append, h]

lemma countLabel_eq_zero {hist : List (String × ℚ)} {l : String}
    (h : l ∉ hist.map Prod.fst) : countLabel hist l = 0 := by
  rw [countLabel, List.length_eq_zero]
  rw [List.filter_eq_nil_iff]
  intro q hq
  simp only [decide_eq_true_eq]
  intro hql
  exact h (hql ▸ List.mem_map_of_mem Prod.fst hq)

lemma mem_firstOccur {a : String} : ∀ {L : List String},
    a ∈ firstOccur L ↔ a ∈ L
  | [] => Iff.rfl
  | b :: L => by
    simp only [firstOccur, List.mem_cons, List.mem_filter,
      @mem_firstOccur a L, decide_eq_true_eq]
    by_cases hab : a = b
    · simp [hab]
    · simp [hab]

lemma firstOccur_append (L : List String) (a : String) :
    firstOccur (L ++ [a])
      = if a ∈ L then firstOccur L else firstOccur L ++ [a] := by
  induction L with
  | nil => simp [firstOccur]
  | cons b L ih =>
    have h1 : firstOccur ((b :: L) ++ [a])
        = b :: (firstOccur (L ++ [a])).filter (fun s => s ≠ b) := rfl
    have h2 : firstOccur (b :: L)
        = b :: (firstOccur L).filter (fun s => s ≠ b) := rfl
    by_cases ha : a ∈ L
    · rw [h1, h2, ih, if_pos ha, if_pos (List.mem_cons_of_mem b ha)]
    · by_cases hab : a = b
      · subst hab
        rw [h1, h2, ih, if_neg ha, List.filter_append,
          if_pos (List.mem_cons_self a L)]
        simp
      · rw [h1, h2, ih, if_neg ha, List.filter_append,
          if_neg (by simp [hab, ha])]
        simp [hab]

lemma tally_eq_canon (hist : List (String × ℚ)) :
    tally hist = canonTally hist := by
  induction hist using List.reverseRecOn with
  | nil => rfl
  | append_singleton t p ih =>
    rw [tally_append, ih]
    have hmap : (t ++ [p]).map Prod.fst = t.map Prod.fst ++ [p.1] := by
      simp
    by_cases hp : p.1 ∈ t.map Prod.fst
    · have hcond : (canonTally t).any (fun c => c.1 = p.1) = true := by
        rw [List.any_eq_true]
        exact ⟨(p.1, countLabel t p.1),
          List.mem_map_of_mem _ (mem_firstOccur.2 hp), by simp⟩
      rw [if_pos hcond]
      rw [canonTally, canonTally, hmap, firstOccur_append, if_pos hp,
        List.map_map]
      refine List.map_congr_left ?_
      intro l hl
      simp only [Function.comp_apply, countLabel_append]
      rcases eq_or_ne l p.1 with h | h
      · simp [h]
      · simp [h, Ne.symm h]
    · have hcond : (canonTally t).any (fun c => c.1 = p.1) = false := by
        rw [List.any_eq_false]
        intro c hc
        rcases List.mem_map.1 hc with ⟨l, hl, rfl⟩
        simp only [decide_eq_true_eq]
        exact fun hlp => hp (hlp ▸ mem_firstOccur.1 hl)
      rw [hcond]
      simp only [Bool.false_eq_true, if_false]
      rw [canonTally, canonTally, hmap, firstOccur_append, if_neg hp,
        List.map_append]
      congr 1
      · refine List.map_congr_left ?_
        intro l hl
        have hlp : l ≠ p.1 := fun h => hp (h ▸ mem_firstOccur.1 hl)
        rw [countLabel_append]
        simp [Ne.symm hlp]
      · simp [countLabel_append, countLabel_eq_zero hp]

/-! ## Helper lemmas: the strict-greater scan keeps the first maximum -/

lemma foldBest_mem (rest : List (String × ℕ)) :
    ∀ c : String × ℕ, rest.foldl pickMax c ∈ c :: rest := by
  induction rest with
  | nil => intro c; simp
  | cons c2 r ih =>
    intro c
    simp only [List.foldl_cons]
    rcases List.mem_cons.1 (ih (pickMax c c2)) with h | h
    · rw [h]
      rw [pickMax]
      split
      · exact List.mem_cons_of_mem _ (List.mem_cons_self _ _)
      · exact List.mem_cons_self _ _
    · exact List.mem_cons_of_mem _ (List.mem_cons_of_mem _ h)

lemma le_pickMax_left (c c2 : String × ℕ) : c.2 ≤ (pickMax c c2).2 := by
  rw [pickMax]; split
  · omega
  · exact le_refl _

lemma le_pickMax_right (c c2 : String × ℕ) : c2.2 ≤ (pickMax c c2).2 := by
  rw [pickMax]; split
  · exact le_refl _
  · omega

lemma foldBest_le (rest : List (String × ℕ)) :
    ∀ c : String × ℕ, ∀ x ∈ c :: rest, x.2 ≤ (rest.foldl pickMax c).2 := by
  induction rest with
  | nil =>
    intro c x hx
    rcases List.mem_cons.1 hx with rfl | h
    · exact le_refl _
    · cases h
  | cons c2 r ih =>
    intro c x hx
    simp only [List.foldl_cons]
    have hbest : (pickMax c c2).2 ≤ (r.foldl pickMax (pickMax c c2)).2 :=
      ih (pickMax c c2) _ (List.mem_cons_self _ _)
    rcases List.mem_cons.1 hx with rfl | hx2
    · exact le_trans (le_pickMax_left _ _) hbest
    · rcases List.mem_cons.1 hx2 with rfl | hx3
      · exact le_trans (le_pickMax_right _ _) hbest
      · exact ih (pickMax c c2) x (List.mem_cons_of_mem _ hx3)

lemma foldBest_find (rest : List (String × ℕ)) :
    ∀ c : String × ℕ,
      (c :: rest).find? (fun x => x.2 == (rest.foldl pickMax c).2)
        = some (rest.foldl pickMax c) := by
  induction rest with
  | nil =>
    intro c
    exact @List.find?_cons_of_pos _ (fun x => x.2 == c.2) c [] (by simp)
  | cons c2 r ih =>
    intro c
    simp only [List.foldl_cons]
    by_cases h : c2.2 > c.2
    · have hpick : pickMax c c2 = c2 := by rw [pickMax, if_pos h]
      have hc2b : (pickMax c c2).2 ≤ (r.foldl pickMax (pickMax c c2)).2 :=
        foldBest_le r (pickMax c c2) _ (List.mem_cons_self _ _)
      rw [hpick] at hc2b ⊢
      have hcb : (c.2 == (r.foldl pickMax c2).2) = false := by
        simp only [beq_eq_false_iff_ne, ne_eq]
        omega
      rw [@List.find?_cons_of_neg _ (fun x => x.2 == (r.foldl pickMax c2).2)
        c (c2 :: r) (by simp [hcb])]
      exact ih c2
    · have hpick : pickMax c c2 = c := by rw [pickMax, if_neg h]
      rw [hpick]
      have ihc := ih c
      by_cases hc : (c.2 == (r.foldl pickMax c).2) = true
      · have hcb : some c = some (r.foldl pickMax c) := by
          rw [← ihc,
            @List.find?_cons_of_pos _ (fun x => x.2 == (r.foldl pickMax c).2)
              c r hc]
        rw [@List.find?_cons_of_pos _ (fun x => x.2 == (r.foldl pickMax c).2)
          c (c2 :: r) hc]
        exact hcb
      · have hcne : c.2 ≠ (r.foldl pickMax c).2 := by simpa using hc
        have hcle : c.2 ≤ (r.foldl pickMax c).2 :=
          foldBest_le r c c (List.mem_cons_self _ _)
        have hc2f : (c2.2 == (r.foldl pickMax c).2) = false := by
          simp only [beq_eq_false_iff_ne, ne_eq]
          omega
        rw [@List.find?_cons_of_neg _ (fun x => x.2 == (r.foldl pickMax c).2)
          c (c2 :: r) (by simp [hc]),
          @List.find?_cons_of_neg _ (fun x => x.2 == (r.foldl pickMax c).2)
          c2 r (by simp [hc2f])]
        rw [@List.find?_cons_of_neg _ (fun x => x.2 == (r.foldl pickMax c).2)
          c r (by simp [hc])] at ihc
        exact ihc

lemma find?_map_pair (K : List String) (f : String → ℕ) (m : ℕ) :
    (K.map (fun l => (l, f l))).find? (fun c => c.2 == m)
      = (K.find? (fun l => f l == m)).map (fun l => (l, f l)) := by
  induction K with
  | nil => rfl
  | cons a K ih =>
    by_cases h : (f a == m) = true
    · rw [List.map_cons,
        @List.find?_cons_of_pos _ (fun c => c.2 == m) (a, f a)
          (K.map (fun l => (l, f l))) h,
        @List.find?_cons_of_pos _ (fun l => f l == m) a K h]
      simp
    · rw [List.map_cons,
        @List.find?_cons_of_neg _ (fun c => c.2 == m) (a, f a)
          (K.map (fun l => (l, f l))) h,
        @List.find?_cons_of_neg _ (fun l => f l == m) a K h, ih]

lemma find?_filter_ne (p : String → Bool) (a : String) (hpa : p a = false)
    (M : List String) :
    (M.filter (fun s => s ≠ a)).find? p = M.find? p := by
  induction M with
  | nil => rfl
  | cons b M ih =>
    by_cases hba : b = a
    · subst hba
      rw [List.filter_cons_of_neg (by simp), ih,
        List.find?_cons_of_neg _ (by simp [hpa])]
    · rw [List.filter_cons_of_pos (by simpa using hba)]
      by_cases hpb : p b = true
      · rw [List.find?_cons_of_pos _ hpb, List.find?_cons_of_pos _ hpb]
      · rw [List.find?_cons_of_neg _ hpb, List.find?_cons_of_neg _ hpb, ih]

lemma find?_firstOccur (p : String → Bool) :
    ∀ L : List String, (firstOccur L).find? p = L.find? p := by
  intro L
  induction L with
  | nil => rfl
  | cons b L ih =>
    rw [firstOccur]
    by_cases hpb : p b = true
    · rw [List.find?_cons_of_pos _ hpb, List.find?_cons_of_pos _ hpb]
    · rw [List.find?_cons_of_neg _ hpb, List.find?_cons_of_neg _ hpb,
        find?_filter_ne p b (by simpa using hpb), ih]

lemma foldl_add_snd (l : List (String × ℚ)) :
    ∀ init : ℚ, l.foldl (fun s p => s + p.2) init
      = init + (l.map Prod.snd).sum := by
  induction l with
  | nil => intro init; simp
  | cons p t ih =>
    intro init
    simp only [List.foldl_cons, List.map_cons, List.sum_cons, ih]
    ring

/-! ## Helper lemmas about `validate_landmarks` -/

lemma takeXs_flatten (g1 g2 g3 : Keypoint → ℚ) (l : List Keypoint) :
    takeXs ((l.map (fun k => [g1 k, g2 k, g3 k])).flatten) = l.map g1 := by
  induction l with
  | nil => rfl
  | cons k t ih =>
    simp only [List.map_cons, List.flatten_cons, List.cons_append,
      List.nil_append]
    rw [takeXs, ih]

lemma takeYs_flatten (g1 g2 g3 : Keypoint → ℚ) (l : List Keypoint) :
    takeYs ((l.map (fun k => [g1 k, g2 k, g3 k])).flatten) = l.map g2 := by
  induction l with
  | nil => rfl
  | cons k t ih =>
    simp only [List.map_cons, List.flatten_cons, List.cons_append,
      List.nil_append]
    rw [takeYs, ih]

lemma validate_landmarks_iff (v : List ℚ) :
    validate_landmarks (some v) = true ↔
      v.length = 63 ∧ (∀ x ∈ takeXs v, -1000 ≤ x ∧ x ≤ 1000) ∧
        (∀ y ∈ takeYs v, -1000 ≤ y ∧ y ≤ 1000) := by
  rw [validate_landmarks]
  split_ifs with h1 h2 h3
  · simp only [Bool.false_eq_true, false_iff]
    rintro ⟨hl, -, -⟩
    exact h1 hl
  · simp only [Bool.false_eq_true, false_iff]
    rintro ⟨-, hx, -⟩
    rw [Bool.or_eq_true] at h2
    rcases h2 with h | h <;>
      rcases List.any_eq_true.mp h with ⟨x, hxm, hxp⟩ <;>
      simp only [decide_eq_true_eq] at hxp <;>
      have := hx x hxm <;> linarith [this.1, this.2]
  · simp only [Bool.false_eq_true, false_iff]
    rintro ⟨-, -, hy⟩
    rw [Bool.or_eq_true] at h3
    rcases h3 with h | h <;>
      rcases List.any_eq_true.mp h with ⟨y, hym, hyp⟩ <;>
      simp only [decide_eq_true_eq] at hyp <;>
      have := hy y hym <;> linarith [this.1, this.2]
  · simp only [true_iff]
    simp only [Bool.or_eq_true, not_or, List.any_eq_true, not_exists,
      decide_eq_true_eq] at h2 h3
    push_neg at h1 h2 h3
    refine ⟨h1, ?_, ?_⟩
    · intro x hx
      exact ⟨by linarith [h2.1 x hx], by linarith [h2.2 x hx]⟩
    · intro y hy
      exact ⟨by linarith [h3.1 y hy], by linarith [h3.2 y hy]⟩

/-! ## Claim theorems -/

/-- C8: `validate_landmarks` accepts a present vector iff it has exactly 63
elements and every per-keypoint x and y component lies within ±1000 (the
NaN/infinity part of the source check is vacuous over the rationals of this
embedding); and the output of `preprocess_landmarks` on any 21-keypoint pose
passes the check. -/
theorem claim_C8_is_valid (v : List ℚ) (pose : List Keypoint)
    (hlen : pose.length = 21) :
    (validate_landmarks (some v) = true ↔
      v.length = 63 ∧ (∀ x ∈ takeXs v, -1000 ≤ x ∧ x ≤ 1000) ∧
        (∀ y ∈ takeYs v, -1000 ≤ y ∧ y ≤ 1000)) ∧
    validate_landmarks (some (preprocess_landmarks pose)) = true := by
  have hf : ∀ k : Keypoint,
      ([(k.x - x_min pose) / x_range pose * 2 - 1,
        (k.y - y_min pose) / y_range pose * 2 - 1, k.z] : List ℚ).length = 3 :=
    fun _ => rfl
  have hnl : (normalized_landmarks pose).length = 21 := by
    rw [normalized_landmarks_length, hlen]
  have hxr : max (x_max pose - x_min pose) 1 = x_range pose := rfl
  have hyr : max (y_max pose - y_min pose) 1 = y_range pose := rfl
  refine ⟨validate_landmarks_iff v, ?_⟩
  rw [validate_landmarks_iff]
  refine ⟨?_, ?_, ?_⟩
  · rw [preprocess_landmarks, flatten_triples_length _ hf, hnl]
  · rw [preprocess_landmarks, takeXs_flatten]
    intro x hx
    rcases List.mem_map.1 hx with ⟨k, hk, rfl⟩
    have hxc : k.x ∈ x_coords pose := List.mem_map_of_mem _ hk
    have hb := scale_bounds (show x_min pose ≤ k.x from listMin_le hxc)
      (show k.x ≤ x_max pose from le_listMax hxc)
    rw [hxr] at hb
    exact ⟨by linarith [hb.1], by linarith [hb.2]⟩
  · rw [preprocess_landmarks, takeYs_flatten]
    intro y hy
    rcases List.mem_map.1 hy with ⟨k, hk, rfl⟩
    have hyc : k.y ∈ y_coords pose := List.mem_map_of_mem _ hk
    have hb := scale_bounds (show y_min pose ≤ k.y from listMin_le hyc)
      (show k.y ≤ y_max pose from le_listMax hyc)
    rw [hyr] at hb
    exact ⟨by linarith [hb.1], by linarith [hb.2]⟩

theorem claim_C8_witness :
    validate_landmarks (some (preprocess_landmarks posew)) = true :=
  (claim_C8_is_valid lmEx posew (by rfl)).2

/-- C3: the stabilized confidence is the arithmetic mean of all confidences
currently in the window, those of losing labels included. -/
theorem claim_C3_mean_confidence (hist : List (String × ℚ))
    (hne : hist ≠ []) :
    (smooth_predictions hist).2
      = (hist.map Prod.snd).sum / (hist.length : ℚ) := by
  obtain ⟨q, t, rfl⟩ : ∃ q t, hist = q :: t := by
    cases hist with
    | nil => exact absurd rfl hne
    | cons q t => exact ⟨q, t, rfl⟩
  simp [smooth_predictions, foldl_add_snd]

theorem claim_C3_witness :
    (smooth_predictions histEx).2 = 84/100 ∧
    (smooth_predictions histEx).1 = "A" := by
  refine ⟨?_, by decide⟩
  rw [claim_C3_mean_confidence histEx (by decide)]
  norm_num [histEx]

/-- C7: `reset` empties the history window and sets the stabilized output to
("", 0.0), so `current` reads ("", 0.0) afterwards regardless of the prior
state; it is idempotent and (being a total function) never fails. -/
theorem claim_C7_reset_idempotent (st : SignTranslator) :
    get_current_prediction (reset st) = ("", 0) ∧
    (reset st).prediction_history = [] ∧
    reset (reset st) = reset st :=
  ⟨rfl, rfl, rfl⟩

/-- C1: for every pose of exactly 21 keypoints, `preprocess_landmarks`
returns a flat 63-element vector; every x component (index 3j) and y
component (index 3j+1) of the output lies in [-1, 1] inclusive, the z
component (index 3j+2) is only translated by the wrist z and never rescaled,
and the element at index 0 equals `(0 - x_min) / x_range * 2 - 1`, the
rescaled value of 0 (the translated wrist x). -/
theorem claim_C1_normalize_bounds (pose : List Keypoint)
    (hlen : pose.length = 21) :
    (preprocess_landmarks pose).length = 63 ∧
    (∀ j : ℕ, j < 21 →
      (-1 ≤ (preprocess_landmarks pose).getD (3 * j) 0 ∧
        (preprocess_landmarks pose).getD (3 * j) 0 ≤ 1) ∧
      (-1 ≤ (preprocess_landmarks pose).getD (3 * j + 1) 0 ∧
        (preprocess_landmarks pose).getD (3 * j + 1) 0 ≤ 1) ∧
      (preprocess_landmarks pose).getD (3 * j + 2) 0
        = (pose.getD j ⟨0, 0, 0⟩).z - (pose.headD ⟨0, 0, 0⟩).z) ∧
    (preprocess_landmarks pose).getD 0 0
      = (0 - x_min pose) / x_range pose * 2 - 1 := by
  have hf : ∀ k : Keypoint,
      ([(k.x - x_min pose) / x_range pose * 2 - 1,
        (k.y - y_min pose) / y_range pose * 2 - 1, k.z] : List ℚ).length = 3 :=
    fun _ => rfl
  have hnl : (normalized_landmarks pose).length = 21 := by
    rw [normalized_landmarks_length, hlen]
  have hkey : ∀ j : ℕ, j < 21 →
      (normalized_landmarks pose).getD j ⟨0, 0, 0⟩ =
        ⟨(pose.getD j ⟨0, 0, 0⟩).x - (pose.headD ⟨0, 0, 0⟩).x,
         (pose.getD j ⟨0, 0, 0⟩).y - (pose.headD ⟨0, 0, 0⟩).y,
         (pose.getD j ⟨0, 0, 0⟩).z - (pose.headD ⟨0, 0, 0⟩).z⟩ := by
    intro j hj
    exact getD_map_keypoint _ pose j (by omega)
  have hget : ∀ j r : ℕ, j < 21 → r < 3 →
      (preprocess_landmarks pose).getD (3 * j + r) 0 =
        ([(((normalized_landmarks pose).getD j ⟨0, 0, 0⟩).x - x_min pose) /
            x_range pose * 2 - 1,
          (((normalized_landmarks pose).getD j ⟨0, 0, 0⟩).y - y_min pose) /
            y_range pose * 2 - 1,
          ((normalized_landmarks pose).getD j ⟨0, 0, 0⟩).z] : List ℚ).getD r 0 := by
    intro j r hj hr
    exact flatten_triples_getD _ hf (normalized_landmarks pose) j r
      (by omega) hr
  have hbounds : ∀ j : ℕ, j < 21 →
      (x_min pose ≤ ((normalized_landmarks pose).getD j ⟨0, 0, 0⟩).x ∧
        ((normalized_landmarks pose).getD j ⟨0, 0, 0⟩).x ≤ x_max pose) ∧
      (y_min pose ≤ ((normalized_landmarks pose).getD j ⟨0, 0, 0⟩).y ∧
        ((normalized_landmarks pose).getD j ⟨0, 0, 0⟩).y ≤ y_max pose) := by
    intro j hj
    have hmem : (normalized_landmarks pose).getD j ⟨0, 0, 0⟩ ∈
        normalized_landmarks pose := getD_mem_keypoint _ j (by omega)
    have hx : ((normalized_landmarks pose).getD j ⟨0, 0, 0⟩).x ∈ x_coords pose :=
      List.mem_map_of_mem _ hmem
    have hy : ((normalized_landmarks pose).getD j ⟨0, 0, 0⟩).y ∈ y_coords pose :=
      List.mem_map_of_mem _ hmem
    exact ⟨⟨listMin_le hx, le_listMax hx⟩, ⟨listMin_le hy, le_listMax hy⟩⟩
  refine ⟨?_, ?_, ?_⟩
  · have := flatten_triples_length _ hf (normalized_landmarks pose)
    rw [preprocess_landmarks] at *
    omega
  · intro j hj
    have h0 := hget j 0 hj (by omega)
    have h1 := hget j 1 hj (by omega)
    have h2 := hget j 2 hj (by omega)
    have hb := hbounds j hj
    refine ⟨?_, ?_, ?_⟩
    · rw [show 3 * j = 3 * j + 0 from rfl, h0]
      exact scale_bounds hb.1.1 hb.1.2
    · rw [h1]
      exact scale_bounds hb.2.1 hb.2.2
    · rw [h2, hkey j hj]
      rfl
  · have h00 := hget 0 0 (by omega) (by omega)
    have hk0 := hkey 0 (by omega)
    obtain ⟨a, t, rfl⟩ : ∃ a t, pose = a :: t := by
      cases pose with
      | nil => simp at hlen
      | cons a t => exact ⟨a, t, rfl⟩
    rw [show (3 : ℕ) * 0 + 0 = 0 from rfl] at h00
    rw [h00, hk0]
    simp

theorem claim_C1_witness :
    (preprocess_landmarks posew).length = 63 ∧
    (preprocess_landmarks posew).getD 0 0
      = (0 - x_min posew) / x_range posew * 2 - 1 :=
  ⟨(claim_C1_normalize_bounds posew (by rfl)).1,
   (claim_C1_normalize_bounds posew (by rfl)).2.2⟩

/-- C5: the axis ranges are always clamped to at least 1, so the divisions in
`preprocess_landmarks` never divide by zero; whenever an axis spread is below
1 the corresponding range is exactly 1; and for a degenerate pose of 21
identical keypoints the output is the fully defined 63-element vector whose
every keypoint triple is [-1, -1, 0]. -/
theorem claim_C5_degenerate_pose (pose : List Keypoint)
    (hlen : pose.length = 21) :
    (1 ≤ x_range pose ∧ 1 ≤ y_range pose) ∧
    (x_max pose - x_min pose < 1 → x_range pose = 1) ∧
    (y_max pose - y_min pose < 1 → y_range pose = 1) ∧
    ((∀ k ∈ pose, k = pose.headD ⟨0, 0, 0⟩) →
      preprocess_landmarks pose
        = (List.replicate 21 ([-1, -1, 0] : List ℚ)).flatten) ∧
    (preprocess_landmarks pose).length = 63 := by
  have hf : ∀ k : Keypoint,
      ([(k.x - x_min pose) / x_range pose * 2 - 1,
        (k.y - y_min pose) / y_range pose * 2 - 1, k.z] : List ℚ).length = 3 :=
    fun _ => rfl
  refine ⟨⟨le_max_right _ _, le_max_right _ _⟩, ?_, ?_, ?_, ?_⟩
  · intro h
    exact max_eq_right (by linarith)
  · intro h
    exact max_eq_right (by linarith)
  · intro hsame
    obtain ⟨a, t, rfl⟩ : ∃ a t, pose = a :: t := by
      cases pose with
      | nil => simp at hlen
      | cons a t => exact ⟨a, t, rfl⟩
    have hall : ∀ k ∈ a :: t, k = a := by simpa using hsame
    have hn : normalized_landmarks (a :: t)
        = List.replicate 21 (⟨0, 0, 0⟩ : Keypoint) := by
      rw [normalized_landmarks, List.eq_replicate_iff]
      refine ⟨by simpa using hlen, ?_⟩
      intro b hb
      rcases List.mem_map.1 hb with ⟨k, hk, rfl⟩
      rw [hall k hk]
      simp
    have hx0 : x_min (a :: t) = 0 :=
      listMin_all_eq (by simp [x_coords, hn]) (by simp [x_coords, hn])
    have hx1 : x_max (a :: t) = 0 :=
      listMax_all_eq (by simp [x_coords, hn]) (by simp [x_coords, hn])
    have hy0 : y_min (a :: t) = 0 :=
      listMin_all_eq (by simp [y_coords, hn]) (by simp [y_coords, hn])
    have hy1 : y_max (a :: t) = 0 :=
      listMax_all_eq (by simp [y_coords, hn]) (by simp [y_coords, hn])
    have hxr : x_range (a :: t) = 1 := by rw [x_range, hx0, hx1]; norm_num
    have hyr : y_range (a :: t) = 1 := by rw [y_range, hy0, hy1]; norm_num
    rw [preprocess_landmarks, hn, List.map_replicate]
    rw [hx0, hy0, hxr, hyr]
    norm_num
  · have hlen3 := flatten_triples_length _ hf (normalized_landmarks pose)
    have hnl : (normalized_landmarks pose).length = 21 := by
      rw [normalized_landmarks_length, hlen]
    rw [preprocess_landmarks] at *
    omega

/-- The winner `_smooth_predictions` picks is a maximum-count label, and it
is the first label attaining that count when the window is scanned in
insertion order. -/
lemma smooth_label_spec (hist : List (String × ℚ)) (hne : hist ≠ []) :
    (∀ l ∈ hist.map Prod.fst,
      countLabel hist l ≤ countLabel hist (smooth_predictions hist).1) ∧
    (hist.map Prod.fst).find?
        (fun l => countLabel hist l
          == countLabel hist (smooth_predictions hist).1)
      = some (smooth_predictions hist).1 := by
  obtain ⟨q, t, rfl⟩ : ∃ q t, hist = q :: t := by
    cases hist with
    | nil => exact absurd rfl hne
    | cons q t => exact ⟨q, t, rfl⟩
  have hsm : (smooth_predictions (q :: t)).1 = firstMax (tally (q :: t)) := by
    simp [smooth_predictions]
  have hK : firstOccur ((q :: t).map Prod.fst)
      = q.1 :: (firstOccur (t.map Prod.fst)).filter (fun s => s ≠ q.1) := rfl
  have htal : tally (q :: t)
      = ((firstOccur ((q :: t).map Prod.fst)).map
          (fun l => (l, countLabel (q :: t) l))) := tally_eq_canon (q :: t)
  set K2 := (firstOccur (t.map Prod.fst)).filter (fun s => s ≠ q.1) with hK2
  set g : String → String × ℕ := fun l => (l, countLabel (q :: t) l) with hg
  have hcounts : tally (q :: t) = g q.1 :: K2.map g := by
    rw [htal, hK]
    rfl
  set best := (K2.map g).foldl pickMax (g q.1) with hbestdef
  have hfm : firstMax (tally (q :: t)) = best.1 := by
    rw [hcounts, firstMax]
  have hbm : best ∈ g q.1 :: K2.map g := foldBest_mem (K2.map g) (g q.1)
  have hbform : best = g best.1 := by
    rcases List.mem_cons.1 hbm with h | h
    · rw [h]
    · rcases List.mem_map.1 h with ⟨l, hl, hgl⟩
      rw [← hgl]

  have hble : ∀ x ∈ g q.1 :: K2.map g, x.2 ≤ best.2 :=
    foldBest_le (K2.map g) (g q.1)
  have hw : (smooth_predictions (q :: t)).1 = best.1 := by rw [hsm, hfm]
  have hbest2 : best.2 = countLabel (q :: t) (smooth_predictions (q :: t)).1 := by
    rw [hw]
    conv_lhs => rw [hbform]
  constructor
  · intro l hl
    have hlK : l ∈ firstOccur ((q :: t).map Prod.fst) := mem_firstOccur.2 hl
    have hgl : g l ∈ g q.1 :: K2.map g := by
      rw [← hcounts, htal]
      exact List.mem_map_of_mem g hlK
    have := hble (g l) hgl
    rw [hbest2] at this
    exact this
  · have hfind := foldBest_find (K2.map g) (g q.1)
    have hfind2 : (firstOccur ((q :: t).map Prod.fst)).find?
        (fun l => countLabel (q :: t) l == best.2)
        = some (smooth_predictions (q :: t)).1 := by
      have hmapfind := find?_map_pair (firstOccur ((q :: t).map Prod.fst))
        (fun l => countLabel (q :: t) l) best.2
      have hKmap : (firstOccur ((q :: t).map Prod.fst)).map g
          = g q.1 :: K2.map g := by
        rw [hK]
        rfl
      rw [hKmap] at hmapfind
      rw [← hbestdef] at hfind
      rw [hfind] at hmapfind
      rcases hfo : (firstOccur ((q :: t).map Prod.fst)).find?
          (fun l => countLabel (q :: t) l == best.2) with _ | l0
      · rw [hfo] at hmapfind
        simp at hmapfind
      · rw [hfo] at hmapfind
        have hbl : best = g l0 := by simpa using hmapfind
        have hl0 : l0 = best.1 := by rw [hbl]
        rw [hl0, hw]
    rw [find?_firstOccur] at hfind2
    rw [hbest2] at hfind2
    exact hfind2

/-- C2: on every non-empty window the stabilized label has the highest
occurrence count, ties are broken in favour of the label that first appears
when the window is scanned in insertion order (oldest to newest), and the
pair `accept` returns is exactly the resmoothing of its updated window. -/
theorem claim_C2_majority_tie_break (hist : List (String × ℚ))
    (hne : hist ≠ []) (st : SignTranslator) (s : String) (c : ℚ) :
    (∀ l ∈ hist.map Prod.fst,
      countLabel hist l ≤ countLabel hist (smooth_predictions hist).1) ∧
    ((hist.map Prod.fst).find?
        (fun l => countLabel hist l
          == countLabel hist (smooth_predictions hist).1)
      = some (smooth_predictions hist).1) ∧
    (accept st s c).2
      = smooth_predictions ((accept st s c).1.prediction_history) :=
  ⟨(smooth_label_spec hist hne).1, (smooth_label_spec hist hne).2, rfl⟩

theorem claim_C2_witness :
    ((tieEx.map Prod.fst).find?
        (fun l => countLabel tieEx l
          == countLabel tieEx (smooth_predictions tieEx).1)
      = some (smooth_predictions tieEx).1) ∧
    (smooth_predictions tieEx).1 = "A" :=
  ⟨(claim_C2_majority_tie_break tieEx (by decide) initTranslator "A" 1).2.1,
   by decide⟩

/-- Pushing into the capped deque never leaves more than `W` entries. -/
lemma dequeAppend_length_le (W : ℕ) (h : List (String × ℚ))
    (p : String × ℚ) : (dequeAppend W h p).length ≤ W := by
  simp only [dequeAppend]
  split
  · rw [List.length_drop]
    omega
  · rename_i hge
    simp only [List.length_append, List.length_singleton] at hge ⊢
    omega

lemma foldl_applyOp_length (ops : List TranslatorOp) :
    ∀ st : SignTranslator, st.prediction_history.length ≤ 5 →
      ((ops.foldl applyOp st).prediction_history).length ≤ 5 := by
  induction ops with
  | nil => intro st h; exact h
  | cons op ops ih =>
    intro st h
    rw [List.foldl_cons]
    apply ih
    cases op with
    | acceptOp s c =>
      exact dequeAppend_length_le SMOOTHING_WINDOW st.prediction_history (s, c)
    | resetOp => simp [applyOp, reset]

/-- C4: starting from the fresh state, no sequence of accepted predictions
and resets ever grows the history window beyond the capacity W = 5; and an
accept performed with the window exactly at capacity evicts precisely the
oldest entry, appending the new one and keeping the other four entries in
their relative order. -/
theorem claim_C4_window_invariant (ops : List TranslatorOp)
    (st : SignTranslator) (s : String) (c : ℚ)
    (hfull : st.prediction_history.length = 5) :
    ((ops.foldl applyOp initTranslator).prediction_history).length ≤ 5 ∧
    (accept st s c).1.prediction_history
      = st.prediction_history.drop 1 ++ [(s, c)] := by
  constructor
  · exact foldl_applyOp_length ops initTranslator (by simp [initTranslator])
  · show dequeAppend SMOOTHING_WINDOW st.prediction_history (s, c)
      = st.prediction_history.drop 1 ++ [(s, c)]
    simp only [dequeAppend, SMOOTHING_WINDOW]
    rw [if_pos (by simp [hfull])]
    have hlen6 : (st.prediction_history ++ [(s, c)]).length = 6 := by
      simp [hfull]
    rw [hlen6, show (6 : ℕ) - 5 = 1 from rfl]
    exact @List.drop_append_of_le_length _ st.prediction_history [(s, c)] 1
      (by omega)

theorem claim_C4_witness :
    ((opsEx.foldl applyOp initTranslator).prediction_history).length ≤ 5 ∧
    (accept stFull "C" 1).1.prediction_history
      = stFull.prediction_history.drop 1 ++ [("C", 1)] :=
  claim_C4_window_invariant opsEx stFull "C" 1 (by rfl)

/-- C6: on every rejected frame — absent landmarks, no model loaded, a
classification exception, a confidence not above the gesture threshold, or
an out-of-range class index — `predict` leaves the whole translator state
(history window, stabilized label, stabilized confidence) exactly as it
was. -/
theorem claim_C6_state_preserved (st : SignTranslator) (lm : List ℚ)
    (classify : List ℚ → Option (ℕ × ℚ)) :
    (predict st none classify).1 = st ∧
    (st.modelLoaded = false → (predict st (some lm) classify).1 = st) ∧
    (classify lm = none → (predict st (some lm) classify).1 = st) ∧
    (∀ idx conf, classify lm = some (idx, conf) →
      ¬(conf > GESTURE_THRESHOLD) → (predict st (some lm) classify).1 = st) ∧
    (∀ idx conf, classify lm = some (idx, conf) →
      ASL_CLASSES.get? idx = none → (predict st (some lm) classify).1 = st) := by
  refine ⟨?_, ?_, ?_, ?_, ?_⟩
  · simp [predict, predictWith]
  · intro h
    simp [predict, predictWith, h]
  · intro h
    by_cases hm : st.modelLoaded = false
    · simp [predict, predictWith, hm]
    · simp [predict, predictWith, hm, h]
  · intro idx conf hcl hth
    by_cases hm : st.modelLoaded = false
    · simp [predict, predictWith, hm]
    · simp [predict, predictWith, hm, hcl, hth]
  · intro idx conf hcl hget
    by_cases hm : st.modelLoaded = false
    · simp [predict, predictWith, hm]
    · rw [List.get?_eq_getElem?] at hget
      by_cases hth : conf > GESTURE_THRESHOLD
      · simp [predict, predictWith, hm, hcl, hth, hget]
      · simp [predict, predictWith, hm, hcl, hth]

theorem claim_C6_witness :
    (predict stw none classifyFail).1 = stw ∧
    (predict stw (some lmEx) classifyFail).1 = stw :=
  ⟨(claim_C6_state_preserved stw lmEx classifyFail).1,
   (claim_C6_state_preserved stw lmEx classifyFail).2.2.1 rfl⟩

/-- C10: `predict` is a total function of its inputs, and on an absent
landmarks argument, an unloaded model, or a classification failure it
returns exactly `(none, 0)` — the persisted stabilized output is only
readable through `get_current_prediction`, which returns the stored pair. -/
theorem claim_C10_predict_total (st : SignTranslator) (lm : List ℚ)
    (classify : List ℚ → Option (ℕ × ℚ)) :
    predict st none classify = (st, (none, 0)) ∧
    (st.modelLoaded = false → predict st (some lm) classify = (st, (none, 0))) ∧
    (classify lm = none → predict st (some lm) classify = (st, (none, 0))) ∧
    get_current_prediction st = (st.current_prediction, st.current_confidence) := by
  refine ⟨?_, ?_, ?_, rfl⟩
  · simp [predict, predictWith]
  · intro h
    simp [predict, predictWith, h]
  · intro h
    by_cases hm : st.modelLoaded = false
    · simp [predict, predictWith, hm]
    · simp [predict, predictWith, hm, h]

theorem claim_C10_witness :
    predict stw none classifyFail = (stw, (none, 0)) ∧
    predict stNoModel (some lmEx) (classifyConst 0 1) = (stNoModel, (none, 0)) ∧
    predict stw (some lmEx) classifyFail = (stw, (none, 0)) :=
  ⟨(claim_C10_predict_total stw lmEx classifyFail).1,
   (claim_C10_predict_total stNoModel lmEx (classifyConst 0 1)).2.1 rfl,
   (claim_C10_predict_total stw lmEx classifyFail).2.2.1 rfl⟩

/-- C9, counterexample to the claim as stated: constructing the translator
with a history window capacity of 0 (≤ 0) succeeds — no error of any kind
is raised — and a gesture threshold outside [0, 1] (here 3/2) is likewise
accepted at call time, the per-frame call returning normally with the state
untouched. -/
theorem claim_C9_counterexample :
    signTranslator_init 0 true = some initTranslator ∧
    (predictWith (3/2) initTranslator (some lmEx) (classifyConst 0 1)).1
      = initTranslator := by
  constructor
  · rfl
  · have : ¬((1 : ℚ) > 3/2) := by norm_num
    simp [predictWith, classifyConst, initTranslator, this]

/-- C9, amended: the constructor performs no tunable validation — it
succeeds exactly when the capacity is non-negative (the only possible
failure being `deque`'s `ValueError` on a negative `maxlen`, not a
configuration check), the threshold is not examined at construction at all,
and no threshold value can make the per-frame call fail: every call either
leaves the state unchanged or performs a normal accept. -/
theorem claim_C9_amended :
    (∀ w : ℤ, (signTranslator_init w true).isSome = true ↔ 0 ≤ w) ∧
    (∀ (threshold : ℚ) (st : SignTranslator) (lm : Option (List ℚ))
      (classify : List ℚ → Option (ℕ × ℚ)),
      (predictWith threshold st lm classify).1 = st ∨
      ∃ s conf, (predictWith threshold st lm classify).1
        = (accept st s conf).1) := by
  constructor
  · intro w
    rw [signTranslator_init]
    split
    · rename_i hw
      simp only [Option.isSome_none]
      constructor
      · intro h
        cases h
      · intro h
        omega
    · rename_i hw
      simp only [Option.isSome_some, true_iff]
      omega
  · intro threshold st lm classify
    by_cases hm : st.modelLoaded = false
    · left
      simp [predictWith, hm]
    · cases lm with
      | none =>
        left
        simp [predictWith]
      | some l =>
        cases hc : classify l with
        | none =>
          left
          simp [predictWith, hm, hc]
        | some pair =>
          rcases pair with ⟨idx, conf⟩
          by_cases hth : conf > threshold
          · cases hg : ASL_CLASSES.get? idx with
            | none =>
              rw [List.get?_eq_getElem?] at hg
              left
              simp [predictWith, hm, hc, hth, hg]
            | some sign =>
              rw [List.get?_eq_getElem?] at hg
              right
              exact ⟨sign, conf, by simp [predictWith, hm, hc, hth, hg]⟩
          · left
            simp [predictWith, hm, hc, hth]

theorem claim_C5_witness :
    preprocess_landmarks poseDegen
      = (List.replicate 21 ([-1, -1, 0] : List ℚ)).flatten ∧
    (preprocess_landmarks poseDegen).length = 63 :=
  ⟨(claim_C5_degenerate_pose poseDegen rfl).2.2.2.1 (by decide),
   (claim_C5_degenerate_pose poseDegen rfl).2.2.2.2⟩

end SignLang
